import Mathlib

/-!
Shallow embedding of the chunk extraction / relevance ranking core of the
`azure-ai-rag` repository (files `src/lib/ai/search.ts` and the chat route
holding `formatRetrievedContext`).

Modelling conventions:
* JavaScript strings are modelled as `List Char`.
* JavaScript `number` arithmetic on scores is modelled over `ℚ` (the spec and
  the claims treat scores as exact arithmetic; all concrete score values used
  here are exactly representable).
* `Math.floor(maxChunkLength * 0.6)` is modelled as `maxChunkLength * 6 / 10`
  (Nat floor division).  For every `maxChunkLength` below `2^53 / 5` the
  double-precision computation `Math.floor(m * 0.6)` agrees with
  `⌊6m/10⌋`, because the rounded product `m * double(0.6)` is within half an
  ulp of the exact value `0.6·m`.
* A JavaScript `Map` is modelled as an association list in insertion order:
  `Map.get` is `lookupKey`, `Map.set` is `setKey` (replacing in place,
  appending fresh keys at the end), `Map.values()` is `List.map Prod.snd`.
* A JavaScript `Set` built from a list is modelled by `setOf`, which keeps the
  first occurrence of each element (JS insertion order); only membership and
  cardinality of these sets are ever consumed.
* `Array.prototype.sort` with the comparator `(a, b) => b.score - a.score` is,
  per ECMA-262, a stable sort ordering by descending score.  The output of a
  stable sort is uniquely determined by that specification, so it is modelled
  by the stable insertion sort `sortByScoreDesc`.
-/

open scoped List

/-- Character class of the whitespace characters relevant to `/\s+/` and
`String.prototype.trim` for the inputs considered here. -/
def isWs (c : Char) : Bool :=
  c = ' ' || c = '\t' || c = '\n' || c = '\r'

/-- State machine for `value.replace(/\s+/g, " ")`: the flag records whether
the previous character belonged to a whitespace run (whose single replacement
space has already been emitted). -/
def squashWsAux : Bool → List Char → List Char
  | _, [] => []
  | prevWs, c :: rest =>
    if isWs c then
      if prevWs then squashWsAux true rest
      else ' ' :: squashWsAux true rest
    else c :: squashWsAux false rest

/-- Model of `value.replace(/\s+/g, " ")`: every maximal run of whitespace is
replaced by a single space. -/
def squashWs (value : List Char) : List Char :=
  squashWsAux false value

/-- Model of `String.prototype.trim`: drop leading and trailing whitespace. -/
def trimChars (s : List Char) : List Char :=
  ((s.dropWhile isWs).reverse.dropWhile isWs).reverse

/-- Model of `normalizeText` (search.ts:44): collapse whitespace runs to a
single space, then trim. -/
def normalizeText (value : List Char) : List Char :=
  trimChars (squashWs value)

/-- Character class `[a-z0-9]` (the text has already been lowercased when the
split is applied). -/
def isAlnum (c : Char) : Bool :=
  ('a' ≤ c && c ≤ 'z') || ('0' ≤ c && c ≤ '9')

/-- Accumulator pass collecting maximal alphanumeric runs; `acc` holds the
current run reversed. -/
def splitRunsAux : List Char → List Char → List (List Char)
  | acc, [] => if acc = [] then [] else [acc.reverse]
  | acc, c :: rest =>
    if isAlnum c then splitRunsAux (c :: acc) rest
    else if acc = [] then splitRunsAux [] rest
    else acc.reverse :: splitRunsAux [] rest

/-- Maximal runs of alphanumeric characters, i.e. `split(/[^a-z0-9]+/g)` with
the empty fragments dropped (they are removed anyway by the length filter of
`tokenize`). -/
def splitAlnumRuns (s : List Char) : List (List Char) :=
  splitRunsAux [] s

/-- Model of `tokenize` (search.ts:55): normalize, lowercase, split on
non-alphanumeric runs, keep only tokens longer than 2 characters. -/
def tokenize (value : List Char) : List (List Char) :=
  (splitAlnumRuns ((normalizeText value).map Char.toLower)).filter
    (fun token => 2 < token.length)

/-- Model of `new Set(·)` on a list of strings: first occurrence of every
element, in insertion order. -/
def jsSetOf (l : List (List Char)) : List (List Char) :=
  l.foldl (fun acc t => if t ∈ acc then acc else acc ++ [t]) []

/-- Model of `value.slice(start, stop)` for `start ≤ stop` (the only way the
source calls it). -/
def jsSlice (s : List Char) (start stop : Nat) : List Char :=
  (s.drop start).take (stop - start)

/-- Model of `s.lastIndexOf(" ", fromIdx)` (search.ts:82): the largest index
`≤ fromIdx` holding a space, `none` when there is none.  Note the searched
range INCLUDES `fromIdx` itself; out-of-range indices never match. -/
def lastSpaceLE (s : List Char) : Nat → Option Nat
  | 0 => if s.getD 0 '?' = ' ' then some 0 else none
  | i + 1 => if s.getD (i + 1) '?' = ' ' then some (i + 1) else lastSpaceLE s i

/-- Window-end computation of one iteration of the `splitIntoChunks` loop
(search.ts:79-86): clamp to `start + maxLen` and to the text length, then back
off to `lastIndexOf(" ", end)` when that position is strictly past
`start + ⌊maxLen·0.6⌋`. -/
def chunkEnd (s : List Char) (maxLen start : Nat) : Nat :=
  let e := min (start + maxLen) s.length
  if e < s.length then
    match lastSpaceLE s e with
    | some w => if start + maxLen * 6 / 10 < w then w else e
    | none => e
  else e

/-- Advance of the loop cursor (search.ts:97):
`start = Math.max(end - overlap, start + 1)`. -/
def nextStart (s : List Char) (maxLen overlap start : Nat) : Nat :=
  max (chunkEnd s maxLen start - overlap) (start + 1)

/-- Progress of the cursor: `nextStart` strictly advances. -/
theorem nextStart_gt (s : List Char) (maxLen overlap start : Nat) :
    start < nextStart s maxLen overlap start := by
  unfold nextStart
  omega

/-- Main loop of `splitIntoChunks` (search.ts:78-98), emitting the trimmed
window contents (empty windows are skipped). -/
def splitLoop (s : List Char) (maxLen overlap start : Nat) : List (List Char) :=
  if _h : start < s.length then
    let e := chunkEnd s maxLen start
    let chunk := trimChars (jsSlice s start e)
    let rest :=
      if s.length ≤ e then []
      else splitLoop s maxLen overlap (nextStart s maxLen overlap start)
    if chunk = [] then rest else chunk :: rest
  else []
termination_by s.length - start
decreasing_by
  have := nextStart_gt s maxLen overlap start
  omega

/-- Model of `splitIntoChunks` (search.ts:61): defaults are
`maxChunkLength = 700`, `overlap = 120`. -/
def splitIntoChunks (value : List Char) (maxChunkLength : Nat := 700)
    (overlap : Nat := 120) : List (List Char) :=
  let normalizedValue := normalizeText value
  if normalizedValue = [] then []
  else if normalizedValue.length ≤ maxChunkLength then [normalizedValue]
  else splitLoop normalizedValue maxChunkLength overlap 0

/-- Companion of `splitLoop` recording the emitted `[start, end)` windows
instead of their trimmed texts. -/
def splitLoopW (s : List Char) (maxLen overlap start : Nat) : List (Nat × Nat) :=
  if _h : start < s.length then
    let e := chunkEnd s maxLen start
    let rest :=
      if s.length ≤ e then []
      else splitLoopW s maxLen overlap (nextStart s maxLen overlap start)
    if trimChars (jsSlice s start e) = [] then rest else (start, e) :: rest
  else []
termination_by s.length - start
decreasing_by
  have := nextStart_gt s maxLen overlap start
  omega

/-- Windows of the emitted chunks of `splitIntoChunks`, mirroring its three
branches. -/
def splitIntoWindows (value : List Char) (maxChunkLength : Nat := 700)
    (overlap : Nat := 120) : List (Nat × Nat) :=
  let normalizedValue := normalizeText value
  if normalizedValue = [] then []
  else if normalizedValue.length ≤ maxChunkLength then [(0, normalizedValue.length)]
  else splitLoopW normalizedValue maxChunkLength overlap 0

/-- Fuel-indexed evaluator of `splitLoopW`, used to compute concrete
instances (the fuelled recursion is structural, hence kernel-reducible). -/
def splitLoopWFuel : Nat → List Char → Nat → Nat → Nat → List (Nat × Nat)
  | 0, _, _, _, _ => []
  | fuel + 1, s, maxLen, overlap, start =>
    if start < s.length then
      let e := chunkEnd s maxLen start
      let rest :=
        if s.length ≤ e then []
        else splitLoopWFuel fuel s maxLen overlap (nextStart s maxLen overlap start)
      if trimChars (jsSlice s start e) = [] then rest else (start, e) :: rest
    else []

theorem splitLoopW_eq_fuel (fuel : Nat) :
    ∀ s maxLen overlap start, s.length - start ≤ fuel →
      splitLoopW s maxLen overlap start = splitLoopWFuel fuel s maxLen overlap start := by
  induction fuel with
  | zero =>
    intro s maxLen overlap start h
    rw [splitLoopW, splitLoopWFuel]
    have : ¬ start < s.length := by omega
    simp [this]
  | succ n ih =>
    intro s maxLen overlap start h
    rw [splitLoopW, splitLoopWFuel]
    by_cases hlt : start < s.length
    · simp only [hlt, dif_pos, if_pos]
      have hns := nextStart_gt s maxLen overlap start
      by_cases hend : s.length ≤ chunkEnd s maxLen start
      · simp [hend]
      · simp only [hend, if_neg, not_false_iff]
        rw [ih s maxLen overlap (nextStart s maxLen overlap start) (by omega)]
    · simp [hlt]

/-- Model of the `SearchDocument` interface (search.ts:26): optional display
metadata and an optional upstream similarity score. -/
structure SearchDocument where
  id : List Char
  text : List Char
  title : Option (List Char)
  sourceName : Option (List Char)
  sourceNumber : Option (List Char)
  similarity : Option ℚ
deriving DecidableEq

/-- Model of the `RetrievedChunk` interface (search.ts:35). -/
structure RetrievedChunk where
  id : List Char
  text : List Char
  title : Option (List Char)
  sourceName : Option (List Char)
  sourceNumber : Option (List Char)
  score : ℚ
deriving DecidableEq

instance : Inhabited RetrievedChunk :=
  ⟨⟨[], [], none, none, none, 0⟩⟩

instance : Inhabited SearchDocument :=
  ⟨⟨[], [], none, none, none, none⟩⟩

/-- Inherited similarity of a document:
`typeof document.similarity === "number" ? document.similarity : 0`
(search.ts:263). -/
def simOf (d : SearchDocument) : ℚ :=
  match d.similarity with
  | some s => s
  | none => 0

/-- Number of query tokens found in the chunk's token set
(search.ts:112-118): the chunk is tokenized into a set and every query token
present in it is counted. -/
def overlapCnt (chunk : List Char) (queryTokens : List (List Char)) : Nat :=
  (queryTokens.filter (fun t => (jsSetOf (tokenize chunk)).contains t)).length

/-- Model of `rankChunk` (search.ts:103): an empty query token set short
circuits to the inherited similarity; otherwise the lexical overlap ratio is
added to it. -/
def rankChunk (chunk : List Char) (queryTokens : List (List Char))
    (similarityScore : ℚ) : ℚ :=
  if queryTokens.length = 0 then similarityScore
  else similarityScore + (overlapCnt chunk queryTokens : ℚ) / (queryTokens.length : ℚ)

/-- Dedup key of a chunk text (search.ts:255):
`normalizeText(chunkText).toLowerCase()`. -/
def normKey (t : List Char) : List Char :=
  (normalizeText t).map Char.toLower

/-- The candidate `RetrievedChunk` built at ordinal `i` (0-based) of a
document (search.ts:268-275): the id suffixes the 1-based ordinal. -/
def candOf (queryTokens : List (List Char)) (d : SearchDocument) (i : Nat)
    (t : List Char) : RetrievedChunk :=
  { id := d.id ++ '-' :: Nat.toDigits 10 (i + 1)
    text := t
    title := d.title
    sourceName := d.sourceName
    sourceNumber := d.sourceNumber
    score := rankChunk t queryTokens (simOf d) }

/-- Model of `Map.get` on the insertion-ordered association list. -/
def lookupKey (key : List Char) : List (List Char × RetrievedChunk) → Option RetrievedChunk
  | [] => none
  | p :: rest => if p.1 = key then some p.2 else lookupKey key rest

/-- Model of `Map.set`: replace in place when the key exists, append at the
end otherwise. -/
def setKey (key : List Char) (v : RetrievedChunk) :
    List (List Char × RetrievedChunk) → List (List Char × RetrievedChunk)
  | [] => [(key, v)]
  | p :: rest => if p.1 = key then (key, v) :: rest else p :: setKey key v rest

/-- Conditional insertion of a candidate into the dedup map
(search.ts:266-276): `if (!existingChunk || score > existingChunk.score)
uniqueChunks.set(...)`. -/
def dedupInsert (m : List (List Char × RetrievedChunk)) (key : List Char)
    (c : RetrievedChunk) : List (List Char × RetrievedChunk) :=
  match lookupKey key m with
  | none => setKey key c m
  | some existing => if existing.score < c.score then setKey key c m else m

/-- Insertion step of the stable descending-score sort: the new element goes
after every already-placed element whose score is at least as large. -/
def insertDesc (c : RetrievedChunk) : List RetrievedChunk → List RetrievedChunk
  | [] => [c]
  | d :: rest => if d.score < c.score then c :: d :: rest else d :: insertDesc c rest

/-- Model of `.sort((a, b) => b.score - a.score)` (search.ts:281): ECMA-262
specifies a stable sort, whose output is uniquely determined; computed here by
a stable insertion sort. -/
def sortByScoreDesc (l : List RetrievedChunk) : List RetrievedChunk :=
  l.foldl (fun acc c => insertDesc c acc) []

/-- Model of `extractRelevantChunks` (search.ts:244): tokenize the query into
a set, split every document with the default window parameters, skip chunks
with an empty dedup key, insert the rest into the dedup map, then sort the
surviving values by descending score and truncate to `maxChunks`. -/
def extractRelevantChunks (userQuery : List Char) (documents : List SearchDocument)
    (maxChunks : Nat := 8) : List RetrievedChunk :=
  let queryTokens := jsSetOf (tokenize userQuery)
  let uniqueChunks := documents.foldl (fun m document =>
    ((splitIntoChunks document.text 700 120).enum).foldl (fun m p =>
      if normKey p.2 = [] then m
      else dedupInsert m (normKey p.2) (candOf queryTokens document p.1 p.2)) m) []
  (sortByScoreDesc (uniqueChunks.map Prod.snd)).take maxChunks

/-- Chunk shape consumed by the context formatter (route file, line 52):
`Array<{ id: string; text: string }>`. -/
structure ContextChunk where
  id : List Char
  text : List Char
deriving DecidableEq

/-- One context block (route file, line 64):
`Source ID: ${chunk.id}\n${chunk.text}`. -/
def mkSection (c : ContextChunk) : List Char :=
  "Source ID: ".toList ++ c.id ++ '\n' :: c.text

/-- Separator the included blocks are joined with (route file, line 73). -/
def ctxSep : List Char := "\n\n---\n\n".toList

/-- Fallback sentence returned for an empty chunk list (route file, line 57). -/
def noContextMessage : List Char :=
  "No relevant context was retrieved from the knowledge base.".toList

/-- Model of `Array.prototype.join(sep)`. -/
def joinSep (sep : List Char) : List (List Char) → List Char
  | [] => []
  | [x] => x
  | x :: xs => x ++ sep ++ joinSep sep xs

/-- Greedy accumulation loop of `formatRetrievedContext` (route file,
lines 60-71): include each section while the running length stays within the
cap, stop at the first overflow. -/
def buildSections : List ContextChunk → Nat → Nat → List (List Char)
  | [], _, _ => []
  | c :: rest, cap, cur =>
    let sec := mkSection c
    if cap < cur + sec.length then []
    else sec :: buildSections rest cap (cur + sec.length)

/-- Model of `formatRetrievedContext` (route file, line 52): default cap is
7000 characters. -/
def formatRetrievedContext (chunks : List ContextChunk)
    (maxContextCharacters : Nat := 7000) : List Char :=
  if chunks.length = 0 then noContextMessage
  else joinSep ctxSep (buildSections chunks maxContextCharacters 0)

/-! ### Properties of the stable descending sort -/

theorem mem_insertDesc {x c : RetrievedChunk} :
    ∀ {l : List RetrievedChunk}, x ∈ insertDesc c l ↔ x = c ∨ x ∈ l := by
  intro l
  induction l with
  | nil => simp [insertDesc]
  | cons d rest ih =>
    by_cases h : d.score < c.score
    · simp [insertDesc, h]
    · simp only [insertDesc, if_neg h, List.mem_cons, ih]
      tauto

theorem insertDesc_perm (c : RetrievedChunk) (l : List RetrievedChunk) :
    insertDesc c l ~ c :: l := by
  induction l with
  | nil => simp [insertDesc]
  | cons d rest ih =>
    by_cases h : d.score < c.score
    · simp [insertDesc, h]
    · calc insertDesc c (d :: rest) = d :: insertDesc c rest := by
            simp [insertDesc, h]
        _ ~ d :: c :: rest := List.Perm.cons d ih
        _ ~ c :: d :: rest := List.Perm.swap c d rest

theorem pairwise_insertDesc (c : RetrievedChunk) (l : List RetrievedChunk)
    (h : l.Pairwise (fun a b => b.score ≤ a.score)) :
    (insertDesc c l).Pairwise (fun a b => b.score ≤ a.score) := by
  induction l with
  | nil => simp [insertDesc]
  | cons d rest ih =>
    rw [List.pairwise_cons] at h
    by_cases hdc : d.score < c.score
    · rw [insertDesc, if_pos hdc]
      refine List.Pairwise.cons ?_ (List.Pairwise.cons h.1 h.2)
      intro x hx
      rcases List.mem_cons.mp hx with rfl | hx
      · exact le_of_lt hdc
      · exact le_trans (h.1 x hx) (le_of_lt hdc)
    · rw [insertDesc, if_neg hdc]
      refine List.Pairwise.cons ?_ (ih h.2)
      intro x hx
      rcases mem_insertDesc.mp hx with rfl | hx
      · exact le_of_not_lt hdc
      · exact h.1 x hx

theorem sortAux_pairwise :
    ∀ (l acc : List RetrievedChunk),
      acc.Pairwise (fun a b => b.score ≤ a.score) →
      (l.foldl (fun a c => insertDesc c a) acc).Pairwise (fun a b => b.score ≤ a.score) := by
  intro l
  induction l with
  | nil => intro acc h; simpa using h
  | cons c rest ih =>
    intro acc h
    exact ih (insertDesc c acc) (pairwise_insertDesc c acc h)

theorem sortByScoreDesc_pairwise (l : List RetrievedChunk) :
    (sortByScoreDesc l).Pairwise (fun a b => b.score ≤ a.score) :=
  sortAux_pairwise l [] List.Pairwise.nil

theorem sortAux_perm :
    ∀ (l acc : List RetrievedChunk),
      l.foldl (fun a c => insertDesc c a) acc ~ l ++ acc := by
  intro l
  induction l with
  | nil => intro acc; simp
  | cons c rest ih =>
    intro acc
    calc (c :: rest).foldl (fun a c => insertDesc c a) acc
        = rest.foldl (fun a c => insertDesc c a) (insertDesc c acc) := by
          simp [List.foldl_cons]
      _ ~ rest ++ insertDesc c acc := ih (insertDesc c acc)
      _ ~ rest ++ c :: acc := List.Perm.append_left rest (insertDesc_perm c acc)
      _ ~ c :: (rest ++ acc) := List.perm_middle
      _ = (c :: rest) ++ acc := rfl

theorem sortByScoreDesc_perm (l : List RetrievedChunk) : sortByScoreDesc l ~ l := by
  have := sortAux_perm l []
  simpa [sortByScoreDesc] using this

/-- Claim C1: the ranker's output is sorted by descending score (every
adjacent pair `(a, b)` — indeed every ordered pair — satisfies
`a.score ≥ b.score`) and has at most `maxChunks` entries. -/
theorem extract_sorted_and_capped (userQuery : List Char)
    (documents : List SearchDocument) (maxChunks : Nat) :
    (extractRelevantChunks userQuery documents maxChunks).Pairwise
        (fun a b => b.score ≤ a.score) ∧
    (extractRelevantChunks userQuery documents maxChunks).length ≤ maxChunks := by
  constructor
  · exact (sortByScoreDesc_pairwise _).sublist (List.take_sublist _ _)
  · rw [extractRelevantChunks]
    simp only [List.length_take]
    exact min_le_left _ _

/-- Witness instantiating claim C1's theorem at a concrete input. -/
theorem extract_sorted_and_capped_witness :
    (extractRelevantChunks "apple".toList
        [⟨"d1".toList, "apple pie".toList, none, none, none, some 1⟩] 8).Pairwise
        (fun a b => b.score ≤ a.score) ∧
    (extractRelevantChunks "apple".toList
        [⟨"d1".toList, "apple pie".toList, none, none, none, some 1⟩] 8).length ≤ 8 :=
  extract_sorted_and_capped "apple".toList
    [⟨"d1".toList, "apple pie".toList, none, none, none, some 1⟩] 8

/-! ### The dedup map as a fold over the flat candidate stream -/

/-- One step of the "keep the strictly better score" selection: the JS map
keeps the current entry unless the incoming score is strictly greater. -/
def pickStep (acc : Option RetrievedChunk) (c : RetrievedChunk) : Option RetrievedChunk :=
  match acc with
  | none => some c
  | some b => if b.score < c.score then some c else some b

/-- First-maximum selection over a candidate stream: the surviving element is
the first one attaining the maximal score. -/
def firstMaxFold (l : List RetrievedChunk) : Option RetrievedChunk :=
  l.foldl pickStep none

/-- Keyed candidates a single document contributes, in processing order:
chunks with an empty dedup key are skipped (search.ts:256-258). -/
def docCandidates (queryTokens : List (List Char)) (d : SearchDocument) :
    List (List Char × RetrievedChunk) :=
  ((splitIntoChunks d.text 700 120).enum).filterMap (fun p =>
    if normKey p.2 = [] then none else some (normKey p.2, candOf queryTokens d p.1 p.2))

/-- All keyed candidates of a ranking call, in processing order. -/
def allCandidates (userQuery : List Char) (documents : List SearchDocument) :
    List (List Char × RetrievedChunk) :=
  documents.flatMap (docCandidates (jsSetOf (tokenize userQuery)))

/-- Candidate chunks carrying a given dedup key, in processing order. -/
def candidatesWithKey (userQuery : List Char) (documents : List SearchDocument)
    (key : List Char) : List RetrievedChunk :=
  (allCandidates userQuery documents).filterMap
    (fun kc => if kc.1 = key then some kc.2 else none)

theorem lookupKey_setKey_self (key : List Char) (v : RetrievedChunk) :
    ∀ m, lookupKey key (setKey key v m) = some v := by
  intro m
  induction m with
  | nil => simp [setKey, lookupKey]
  | cons p rest ih =>
    by_cases h : p.1 = key
    · simp [setKey, h, lookupKey]
    · simp [setKey, h, lookupKey, ih]

theorem lookupKey_setKey_ne (key key' : List Char) (v : RetrievedChunk)
    (h : key' ≠ key) : ∀ m, lookupKey key (setKey key' v m) = lookupKey key m := by
  intro m
  induction m with
  | nil => simp [setKey, lookupKey, h]
  | cons p rest ih =>
    by_cases hp : p.1 = key'
    · have : ¬ p.1 = key := by rw [hp]; exact h
      simp [setKey, hp, lookupKey, h, this]
    · by_cases hk : p.1 = key
      · have hne : ¬ key = key' := fun hh => h hh.symm
        simp [setKey, hp, lookupKey, hk, hne]
      · simp [setKey, hp, lookupKey, hk, ih]

theorem lookupKey_dedupInsert (m : List (List Char × RetrievedChunk))
    (key key' : List Char) (c : RetrievedChunk) :
    lookupKey key (dedupInsert m key' c) =
      if key' = key then pickStep (lookupKey key m) c else lookupKey key m := by
  by_cases hk : key' = key
  · subst hk
    rw [dedupInsert]
    cases hm : lookupKey key' m with
    | none => simp [hm, pickStep, lookupKey_setKey_self]
    | some b =>
      by_cases hs : b.score < c.score
      · simp [hm, hs, pickStep, lookupKey_setKey_self]
      · simp [hm, hs, pickStep]
  · rw [dedupInsert]
    cases hm : lookupKey key' m with
    | none => simp [hk, lookupKey_setKey_ne key key' c hk]
    | some b =>
      by_cases hs : b.score < c.score
      · simp [hk, hs, lookupKey_setKey_ne key key' c hk]
      · simp [hk, hs]

theorem lookupKey_foldl_dedupInsert :
    ∀ (cands : List (List Char × RetrievedChunk))
      (m : List (List Char × RetrievedChunk)) (key : List Char),
      lookupKey key (cands.foldl (fun m kc => dedupInsert m kc.1 kc.2) m) =
      (cands.filterMap (fun kc => if kc.1 = key then some kc.2 else none)).foldl
        pickStep (lookupKey key m) := by
  intro cands
  induction cands with
  | nil => intro m key; simp
  | cons kc rest ih =>
    intro m key
    rw [List.foldl_cons, ih, List.filterMap_cons]
    by_cases hk : kc.1 = key
    · simp only [hk, if_pos rfl, List.foldl_cons]
      rw [lookupKey_dedupInsert]
      simp [hk]
    · simp only [hk, if_neg, ite_false]
      rw [lookupKey_dedupInsert]
      simp [hk]

theorem foldl_filterMap_generic {α β γ : Type} (f : α → Option β) (g : γ → β → γ) :
    ∀ (l : List α) (init : γ),
      (l.filterMap f).foldl g init =
      l.foldl (fun acc a =>
        match f a with
        | some b => g acc b
        | none => acc) init := by
  intro l
  induction l with
  | nil => intro init; rfl
  | cons a rest ih =>
    intro init
    rw [List.filterMap_cons]
    cases hf : f a with
    | none => simp [hf, ih]
    | some b => simp [hf, ih]

/-- The nested per-document folds of `extractRelevantChunks` coincide with a
single fold of `dedupInsert` over the flat candidate stream. -/
theorem extractRelevantChunks_eq_candidates (userQuery : List Char)
    (documents : List SearchDocument) (maxChunks : Nat) :
    extractRelevantChunks userQuery documents maxChunks =
      (sortByScoreDesc (((allCandidates userQuery documents).foldl
        (fun m kc => dedupInsert m kc.1 kc.2) []).map Prod.snd)).take maxChunks := by
  have hfun :
      (fun (m : List (List Char × RetrievedChunk)) (document : SearchDocument) =>
        ((splitIntoChunks document.text 700 120).enum).foldl (fun m p =>
          if normKey p.2 = [] then m
          else dedupInsert m (normKey p.2)
            (candOf (jsSetOf (tokenize userQuery)) document p.1 p.2)) m)
      = fun (m : List (List Char × RetrievedChunk)) (document : SearchDocument) =>
        (docCandidates (jsSetOf (tokenize userQuery)) document).foldl
          (fun m kc => dedupInsert m kc.1 kc.2) m := by
    funext m d
    rw [docCandidates, foldl_filterMap_generic]
    congr 1
    funext acc p
    by_cases h : normKey p.2 = []
    · simp [h]
    · simp [h]
  simp only [extractRelevantChunks]
  rw [hfun, allCandidates, List.flatMap, List.foldl_flatten, List.foldl_map]

theorem mem_setKey {p : List Char × RetrievedChunk} (key : List Char)
    (v : RetrievedChunk) :
    ∀ {m : List (List Char × RetrievedChunk)},
      p ∈ setKey key v m → p = (key, v) ∨ p ∈ m := by
  intro m
  induction m with
  | nil => intro h; simpa [setKey] using h
  | cons q rest ih =>
    intro h
    by_cases hq : q.1 = key
    · rw [setKey, if_pos hq] at h
      rcases List.mem_cons.mp h with rfl | h
      · exact Or.inl rfl
      · exact Or.inr (List.mem_cons_of_mem q h)
    · rw [setKey, if_neg hq] at h
      rcases List.mem_cons.mp h with rfl | h
      · exact Or.inr (List.mem_cons_self _ _)
      · rcases ih h with h' | h'
        · exact Or.inl h'
        · exact Or.inr (List.mem_cons_of_mem q h')

theorem mem_dedupInsert {p : List Char × RetrievedChunk}
    (m : List (List Char × RetrievedChunk)) (key : List Char) (c : RetrievedChunk)
    (h : p ∈ dedupInsert m key c) : p = (key, c) ∨ p ∈ m := by
  cases hm : lookupKey key m with
  | none =>
    simp only [dedupInsert, hm] at h
    exact mem_setKey key c h
  | some b =>
    simp only [dedupInsert, hm] at h
    by_cases hs : b.score < c.score
    · rw [if_pos hs] at h
      exact mem_setKey key c h
    · rw [if_neg hs] at h
      exact Or.inr h

theorem mem_foldl_dedupInsert {p : List Char × RetrievedChunk} :
    ∀ (cands m : List (List Char × RetrievedChunk)),
      p ∈ cands.foldl (fun m kc => dedupInsert m kc.1 kc.2) m →
      p ∈ m ∨ p ∈ cands := by
  intro cands
  induction cands with
  | nil => intro m h; exact Or.inl (by simpa using h)
  | cons kc rest ih =>
    intro m h
    rw [List.foldl_cons] at h
    rcases ih (dedupInsert m kc.1 kc.2) h with h' | h'
    · rcases mem_dedupInsert m kc.1 kc.2 h' with h'' | h''
      · exact Or.inr (by simp [h''])
      · exact Or.inl h''
    · exact Or.inr (List.mem_cons_of_mem kc h')

theorem lookupKey_eq_none_iff (key : List Char) :
    ∀ (m : List (List Char × RetrievedChunk)),
      lookupKey key m = none ↔ key ∉ m.map Prod.fst := by
  intro m
  induction m with
  | nil => simp [lookupKey]
  | cons p rest ih =>
    by_cases hp : p.1 = key
    · simp [lookupKey, hp]
    · simp only [lookupKey, if_neg hp, List.map_cons, List.mem_cons, ih]
      constructor
      · intro h hmem
        rcases hmem with h' | h'
        · exact hp h'.symm
        · exact h h'
      · intro h
        exact fun h' => h (Or.inr h')

theorem keys_setKey_of_absent (key : List Char) (v : RetrievedChunk) :
    ∀ (m : List (List Char × RetrievedChunk)), lookupKey key m = none →
      (setKey key v m).map Prod.fst = m.map Prod.fst ++ [key] := by
  intro m
  induction m with
  | nil => intro _; simp [setKey]
  | cons p rest ih =>
    intro h
    by_cases hp : p.1 = key
    · rw [lookupKey, if_pos hp] at h
      exact absurd h (by simp)
    · rw [lookupKey, if_neg hp] at h
      simp [setKey, hp, ih h]

theorem keys_setKey_of_present (key : List Char) (v : RetrievedChunk) :
    ∀ (m : List (List Char × RetrievedChunk)), lookupKey key m ≠ none →
      (setKey key v m).map Prod.fst = m.map Prod.fst := by
  intro m
  induction m with
  | nil => intro h; exact absurd rfl h
  | cons p rest ih =>
    intro h
    by_cases hp : p.1 = key
    · simp [setKey, hp]
    · rw [lookupKey, if_neg hp] at h
      simp [setKey, hp, ih h]

/-- Well-formedness of the dedup map: keys are distinct, and every stored
chunk's dedup key is the key it is stored under. -/
def GoodMap (m : List (List Char × RetrievedChunk)) : Prop :=
  (m.map Prod.fst).Nodup ∧ ∀ p ∈ m, normKey p.2.text = p.1

theorem goodMap_dedupInsert (m : List (List Char × RetrievedChunk))
    (key : List Char) (c : RetrievedChunk) (hkey : normKey c.text = key)
    (hm : GoodMap m) : GoodMap (dedupInsert m key c) := by
  have hset : GoodMap (setKey key c m) := by
    constructor
    · cases hlook : lookupKey key m with
      | none =>
        rw [keys_setKey_of_absent key c m hlook]
        have hnotin : key ∉ m.map Prod.fst := (lookupKey_eq_none_iff key m).mp hlook
        refine List.Nodup.append hm.1 (List.nodup_singleton key) ?_
        intro a ha hb
        rw [List.mem_singleton] at hb
        subst hb
        exact hnotin ha
      | some b =>
        rw [keys_setKey_of_present key c m (by simp [hlook])]
        exact hm.1
    · intro p hp
      rcases mem_setKey key c hp with rfl | hp'
      · simpa using hkey
      · exact hm.2 p hp'
  cases hlook : lookupKey key m with
  | none => simpa only [dedupInsert, hlook] using hset
  | some b =>
    by_cases hs : b.score < c.score
    · simp only [dedupInsert, hlook, if_pos hs]; exact hset
    · simp only [dedupInsert, hlook, if_neg hs]; exact hm

theorem goodMap_foldl_dedupInsert :
    ∀ (cands m : List (List Char × RetrievedChunk)),
      (∀ kc ∈ cands, normKey kc.2.text = kc.1) → GoodMap m →
      GoodMap (cands.foldl (fun m kc => dedupInsert m kc.1 kc.2) m) := by
  intro cands
  induction cands with
  | nil => intro m _ hm; simpa using hm
  | cons kc rest ih =>
    intro m hc hm
    rw [List.foldl_cons]
    refine ih _ (fun q hq => hc q (List.mem_cons_of_mem kc hq)) ?_
    exact goodMap_dedupInsert m kc.1 kc.2 (hc kc (List.mem_cons_self _ _)) hm

theorem allCandidates_keyed (userQuery : List Char)
    (documents : List SearchDocument) :
    ∀ kc ∈ allCandidates userQuery documents, normKey kc.2.text = kc.1 := by
  intro kc hkc
  rw [allCandidates] at hkc
  rcases List.mem_flatMap.mp hkc with ⟨d, _, hd⟩
  rw [docCandidates] at hd
  rcases List.mem_filterMap.mp hd with ⟨p, _, hp⟩
  by_cases h : normKey p.2 = []
  · rw [if_pos h] at hp; cases hp
  · rw [if_neg h] at hp
    cases hp
    rfl

theorem foldl_pickStep_isSome :
    ∀ (l : List RetrievedChunk) (b : RetrievedChunk),
      l.foldl pickStep (some b) ≠ none := by
  intro l
  induction l with
  | nil => intro b; simp
  | cons c rest ih =>
    intro b
    rw [List.foldl_cons]
    by_cases hs : b.score < c.score
    · simpa [pickStep, hs] using ih c
    · simpa [pickStep, hs] using ih b

theorem firstMaxFold_eq_none (l : List RetrievedChunk)
    (h : firstMaxFold l = none) : l = [] := by
  cases l with
  | nil => rfl
  | cons c rest =>
    rw [firstMaxFold, List.foldl_cons] at h
    exact absurd h (by simpa [pickStep] using foldl_pickStep_isSome rest c)

/-- The element selected by `firstMaxFold` is the first element of the stream
attaining the maximal score: everything before it scores strictly less, and
everything after it scores no more. -/
theorem firstMaxFold_spec :
    ∀ (l : List RetrievedChunk) (c : RetrievedChunk), firstMaxFold l = some c →
      ∃ pre post, l = pre ++ c :: post ∧ (∀ d ∈ pre, d.score < c.score) ∧
        (∀ d ∈ post, d.score ≤ c.score) := by
  intro l
  induction l using List.reverseRecOn with
  | nil => intro c h; cases h
  | append_singleton xs x ih =>
    intro c h
    rw [firstMaxFold, List.foldl_append, List.foldl_cons, List.foldl_nil] at h
    cases hxs : xs.foldl pickStep none with
    | none =>
      have hnil : xs = [] := firstMaxFold_eq_none xs hxs
      subst hnil
      rw [List.foldl_nil] at h
      simp only [pickStep] at h
      cases h
      exact ⟨[], [], rfl, by simp, by simp⟩
    | some b =>
      rw [hxs] at h
      rcases ih b hxs with ⟨pre, post, hdecomp, hpre, hpost⟩
      by_cases hs : b.score < c.score
      · simp only [pickStep, hs, if_true] at h
        by_cases hbx : b.score < x.score
        · have hcx : c = x := by
            simp only [pickStep, hbx, if_pos] at h
            exact (Option.some.inj h).symm
          subst hcx
          refine ⟨xs, [], rfl, ?_, by simp⟩
          intro d hd
          have hdb : d.score ≤ b.score := by
            rw [hdecomp] at hd
            rcases List.mem_append.mp hd with hd' | hd'
            · exact le_of_lt (hpre d hd')
            · rcases List.mem_cons.mp hd' with rfl | hd''
              · exact le_refl _
              · exact hpost d hd''
          exact lt_of_le_of_lt hdb hbx
        · exfalso
          simp only [pickStep, hbx, if_neg, ite_false] at h
          cases h
          exact hs.false
      · by_cases hbx : b.score < x.score
        · simp only [pickStep, hbx, if_pos] at h
          cases h
          exact absurd hbx hs
        · simp only [pickStep, hbx, ite_false] at h
          cases h
          refine ⟨pre, post ++ [x], by rw [hdecomp]; simp, hpre, ?_⟩
          intro d hd
          rcases List.mem_append.mp hd with hd' | hd'
          · exact hpost d hd'
          · rw [List.mem_singleton] at hd'
            subst hd'
            exact le_of_not_lt hbx

theorem lookupKey_of_mem_nodup :
    ∀ (m : List (List Char × RetrievedChunk)) (key : List Char) (c : RetrievedChunk),
      (m.map Prod.fst).Nodup → (key, c) ∈ m → lookupKey key m = some c := by
  intro m
  induction m with
  | nil => intro key c _ h; cases h
  | cons p rest ih =>
    intro key c hnodup hmem
    rw [List.map_cons, List.nodup_cons] at hnodup
    rcases List.mem_cons.mp hmem with rfl | hmem'
    · simp [lookupKey]
    · by_cases hp : p.1 = key
      · exfalso
        apply hnodup.1
        rw [hp]
        exact List.mem_map_of_mem Prod.fst hmem'
      · rw [lookupKey, if_neg hp]
        exact ih key c hnodup.2 hmem'

theorem values_pairwise_of_goodMap :
    ∀ (m : List (List Char × RetrievedChunk)), GoodMap m →
      (m.map Prod.snd).Pairwise (fun a b => normKey a.text ≠ normKey b.text) := by
  intro m
  induction m with
  | nil => intro _; simp
  | cons p rest ih =>
    intro hm
    obtain ⟨hnodup, hinv⟩ := hm
    rw [List.map_cons, List.nodup_cons] at hnodup
    rw [List.map_cons]
    refine List.Pairwise.cons ?_ (ih ⟨hnodup.2, fun q hq => hinv q (List.mem_cons_of_mem p hq)⟩)
    intro b hb heq
    rcases List.mem_map.mp hb with ⟨q, hq, rfl⟩
    have h1 : normKey p.2.text = p.1 := hinv p (List.mem_cons_self _ _)
    have h2 : normKey q.2.text = q.1 := hinv q (List.mem_cons_of_mem p hq)
    apply hnodup.1
    rw [← h1, heq, h2]
    exact List.mem_map_of_mem Prod.fst hq

/-- Elements of the ranker's output all appear among the dedup-map values. -/
theorem mem_extract_mem_values (userQuery : List Char)
    (documents : List SearchDocument) (maxChunks : Nat) (c : RetrievedChunk)
    (hc : c ∈ extractRelevantChunks userQuery documents maxChunks) :
    c ∈ ((allCandidates userQuery documents).foldl
        (fun m kc => dedupInsert m kc.1 kc.2) []).map Prod.snd := by
  rw [extractRelevantChunks_eq_candidates] at hc
  exact (sortByScoreDesc_perm _).mem_iff.mp (List.mem_of_mem_take hc)

/-- Claim C2: no two output chunks share a normalized text; each output chunk
is the first candidate of its dedup key attaining the maximal score (earlier
candidates score strictly less, later ones no more, because replacement
requires a strictly greater score); and on the spec's concrete example — two
documents whose chunks normalize identically, with scores 1/2 and 9/10 — the
sole survivor carries score 9/10 and the id derived from the second document's
ordinal. -/
theorem extract_dedup_unique (userQuery : List Char)
    (documents : List SearchDocument) (maxChunks : Nat) :
    (extractRelevantChunks userQuery documents maxChunks).Pairwise
        (fun a b => normKey a.text ≠ normKey b.text) ∧
    (∀ c, c ∈ extractRelevantChunks userQuery documents maxChunks →
      ∃ pre post,
        candidatesWithKey userQuery documents (normKey c.text) = pre ++ c :: post ∧
        (∀ d ∈ pre, d.score < c.score) ∧ (∀ d ∈ post, d.score ≤ c.score)) ∧
    extractRelevantChunks []
        [⟨"a".toList, "Hello".toList, none, none, none, some (1/2)⟩,
         ⟨"b".toList, "hello".toList, none, none, none, some (9/10)⟩] 8 =
      [⟨"b-1".toList, "hello".toList, none, none, none, 9/10⟩] := by
  have hgood : GoodMap ((allCandidates userQuery documents).foldl
      (fun m kc => dedupInsert m kc.1 kc.2) []) :=
    goodMap_foldl_dedupInsert _ [] (allCandidates_keyed userQuery documents)
      ⟨List.nodup_nil, by intro p hp; cases hp⟩
  refine ⟨?_, ?_, ?_⟩
  · rw [extractRelevantChunks_eq_candidates]
    have hvals := values_pairwise_of_goodMap _ hgood
    have hsorted := ((sortByScoreDesc_perm _).pairwise_iff
      (fun h => Ne.symm h)).mpr hvals
    exact hsorted.sublist (List.take_sublist _ _)
  · intro c hc
    have hval := mem_extract_mem_values userQuery documents maxChunks c hc
    rcases List.mem_map.mp hval with ⟨p, hp, hpc⟩
    rcases p with ⟨k, v⟩
    simp only at hpc
    subst hpc
    have hkey : normKey v.text = k := hgood.2 (k, v) hp
    have hlook : lookupKey k ((allCandidates userQuery documents).foldl
        (fun m kc => dedupInsert m kc.1 kc.2) []) = some v :=
      lookupKey_of_mem_nodup _ k v hgood.1 hp
    have hbridge := lookupKey_foldl_dedupInsert (allCandidates userQuery documents) [] k
    rw [hlook] at hbridge
    have hfm : firstMaxFold (candidatesWithKey userQuery documents k) = some v := by
      rw [candidatesWithKey, firstMaxFold]
      exact hbridge.symm
    rcases firstMaxFold_spec _ v hfm with ⟨pre, post, hdec, hpre, hpost⟩
    rw [hkey]
    exact ⟨pre, post, hdec, hpre, hpost⟩
  · have hsc : ((1:ℚ)/2) < 9/10 := by norm_num
    calc
      extractRelevantChunks []
          [⟨"a".toList, "Hello".toList, none, none, none, some (1/2)⟩,
           ⟨"b".toList, "hello".toList, none, none, none, some (9/10)⟩] 8
        = (sortByScoreDesc ((if ((1:ℚ)/2) < 9/10 then
            [("hello".toList,
              (⟨"b-1".toList, "hello".toList, none, none, none, 9/10⟩ : RetrievedChunk))]
            else
            [("hello".toList,
              (⟨"a-1".toList, "Hello".toList, none, none, none, 1/2⟩ : RetrievedChunk))]).map
              Prod.snd)).take 8 := rfl
      _ = [⟨"b-1".toList, "hello".toList, none, none, none, 9/10⟩] := by
          rw [if_pos hsc]
          rfl

/-- Witness instantiating claim C2's theorem: the surviving example chunk is
the first maximal-score candidate of its dedup key. -/
theorem extract_dedup_unique_witness :
    ∃ pre post,
      candidatesWithKey []
        [⟨"a".toList, "Hello".toList, none, none, none, some (1/2)⟩,
         ⟨"b".toList, "hello".toList, none, none, none, some (9/10)⟩]
        (normKey (⟨"b-1".toList, "hello".toList, none, none, none,
          (9:ℚ)/10⟩ : RetrievedChunk).text) =
        pre ++ (⟨"b-1".toList, "hello".toList, none, none, none, 9/10⟩ : RetrievedChunk) :: post ∧
      (∀ d ∈ pre, d.score < (9:ℚ)/10) ∧ (∀ d ∈ post, d.score ≤ (9:ℚ)/10) := by
  have h := extract_dedup_unique []
    [⟨"a".toList, "Hello".toList, none, none, none, some (1/2)⟩,
     ⟨"b".toList, "hello".toList, none, none, none, some (9/10)⟩] 8
  exact h.2.1 ⟨"b-1".toList, "hello".toList, none, none, none, 9/10⟩
    (by rw [h.2.2]; exact List.mem_singleton.mpr rfl)

/-- Claim C3: when the query token set is empty, `rankChunk` short-circuits to
the inherited similarity (never reaching the division), and every output
chunk's score equals its source document's inherited similarity (0 when the
document carries none). -/
theorem empty_query_fallback (userQuery : List Char) (documents : List SearchDocument)
    (maxChunks : Nat) (h : tokenize userQuery = []) :
    (∀ chunk similarityScore,
      rankChunk chunk (jsSetOf (tokenize userQuery)) similarityScore = similarityScore) ∧
    ∀ c ∈ extractRelevantChunks userQuery documents maxChunks,
      ∃ d ∈ documents, c.score = simOf d := by
  have hq : jsSetOf (tokenize userQuery) = [] := by rw [h]; rfl
  constructor
  · intro chunk s
    rw [rankChunk, hq]
    simp
  · intro c hc
    have hval := mem_extract_mem_values userQuery documents maxChunks c hc
    rcases List.mem_map.mp hval with ⟨p, hp, hpc⟩
    rcases mem_foldl_dedupInsert _ [] hp with h0 | hcand
    · cases h0
    · rw [allCandidates] at hcand
      rcases List.mem_flatMap.mp hcand with ⟨d, hd, hdc⟩
      rw [docCandidates] at hdc
      rcases List.mem_filterMap.mp hdc with ⟨pe, _, hpeq⟩
      by_cases hnk : normKey pe.2 = []
      · rw [if_pos hnk] at hpeq
        cases hpeq
      · rw [if_neg hnk] at hpeq
        refine ⟨d, hd, ?_⟩
        have hsnd : p.2 = candOf (jsSetOf (tokenize userQuery)) d pe.1 pe.2 := by
          rw [← Option.some_inj.mp hpeq]
        rw [← hpc, hsnd, candOf]
        simp only
        rw [rankChunk, hq]
        simp

/-- Witness instantiating claim C3's theorem: the query "a b" has no token
longer than two characters, so the sole output chunk inherits the document
similarity 3/4. -/
theorem empty_query_fallback_witness :
    tokenize "a b".toList = [] ∧
    ((∀ chunk similarityScore,
      rankChunk chunk (jsSetOf (tokenize "a b".toList)) similarityScore = similarityScore) ∧
    ∀ c ∈ extractRelevantChunks "a b".toList
        [⟨"doc".toList, "some text".toList, none, none, none, some (3/4)⟩] 8,
      ∃ d ∈ [(⟨"doc".toList, "some text".toList, none, none, none,
          some ((3:ℚ)/4)⟩ : SearchDocument)], c.score = simOf d) :=
  ⟨by decide, empty_query_fallback "a b".toList
    [⟨"doc".toList, "some text".toList, none, none, none, some (3/4)⟩] 8 (by decide)⟩

/-- Claim C4: against a non-empty query token set the score is the inherited
similarity plus the lexical overlap ratio (matching query tokens divided by
the query token count), the ratio always lies in `[0, 1]`, and the spec's
concrete example yields a single chunk scoring `1 + 2/2 = 2`. -/
theorem rank_lexical_score (chunk : List Char) (queryTokens : List (List Char))
    (similarityScore : ℚ) (h : queryTokens ≠ []) :
    rankChunk chunk queryTokens similarityScore =
      similarityScore + (overlapCnt chunk queryTokens : ℚ) / (queryTokens.length : ℚ) ∧
    0 ≤ (overlapCnt chunk queryTokens : ℚ) / (queryTokens.length : ℚ) ∧
    (overlapCnt chunk queryTokens : ℚ) / (queryTokens.length : ℚ) ≤ 1 ∧
    extractRelevantChunks "apple banana".toList
        [⟨"d1".toList, "apple banana apple".toList, none, none, none, some 1⟩] 8 =
      [⟨"d1-1".toList, "apple banana apple".toList, none, none, none, 2⟩] := by
  have hlen : queryTokens.length ≠ 0 := by
    intro h0
    exact h (List.length_eq_zero.mp h0)
  have hlenpos : (0:ℚ) < (queryTokens.length : ℚ) := by
    have := Nat.pos_of_ne_zero hlen
    exact_mod_cast this
  refine ⟨by rw [rankChunk, if_neg hlen], ?_, ?_, ?_⟩
  · exact div_nonneg (Nat.cast_nonneg _) (Nat.cast_nonneg _)
  · rw [div_le_one hlenpos]
    exact_mod_cast List.length_filter_le _ queryTokens
  · have hshape : extractRelevantChunks "apple banana".toList
        [⟨"d1".toList, "apple banana apple".toList, none, none, none, some 1⟩] 8 =
        [⟨"d1-1".toList, "apple banana apple".toList, none, none, none,
          (1:ℚ) + ((2:ℕ):ℚ)/((2:ℕ):ℚ)⟩] := rfl
    rw [hshape]
    simp only [List.cons.injEq, RetrievedChunk.mk.injEq]
    norm_num

/-- Witness instantiating claim C4's theorem at a concrete non-empty query
token set. -/
theorem rank_lexical_score_witness :
    rankChunk "big apple".toList ["apple".toList] (1/4) =
      1/4 + (overlapCnt "big apple".toList ["apple".toList] : ℚ) / ((1:ℕ) : ℚ) ∧
    0 ≤ (overlapCnt "big apple".toList ["apple".toList] : ℚ) / ((1:ℕ) : ℚ) ∧
    (overlapCnt "big apple".toList ["apple".toList] : ℚ) / ((1:ℕ) : ℚ) ≤ 1 ∧
    extractRelevantChunks "apple banana".toList
        [⟨"d1".toList, "apple banana apple".toList, none, none, none, some 1⟩] 8 =
      [⟨"d1-1".toList, "apple banana apple".toList, none, none, none, 2⟩] :=
  rank_lexical_score "big apple".toList ["apple".toList] (1/4) (by decide)

/-- Claim C8: the segmenter makes progress on every iteration — for every
cursor inside the text, the next cursor `max(end - overlap, start + 1)` is
strictly larger and the remaining suffix strictly shrinks, for every
`maxLen ≥ 1` and every overlap (the bound on `maxLen` is not even needed). -/
theorem split_progress (s : List Char) (maxLen overlap start : Nat)
    (_hm : 1 ≤ maxLen) (hs : start < s.length) :
    start < nextStart s maxLen overlap start ∧
    s.length - nextStart s maxLen overlap start < s.length - start := by
  have h1 := nextStart_gt s maxLen overlap start
  exact ⟨h1, by omega⟩

/-- Witness instantiating claim C8's theorem on a concrete text and cursor. -/
theorem split_progress_witness :
    (1:Nat) ≤ 5 ∧ 0 < ("abcdefgh".toList).length ∧
    (0 < nextStart "abcdefgh".toList 5 120 0 ∧
      ("abcdefgh".toList).length - nextStart "abcdefgh".toList 5 120 0 <
        ("abcdefgh".toList).length - 0) :=
  ⟨by decide, by decide, split_progress "abcdefgh".toList 5 120 0 (by decide) (by decide)⟩

/-! ### The context formatter -/

theorem buildSections_shape :
    ∀ (chunks : List ContextChunk) (cap cur : Nat),
      ∃ k, buildSections chunks cap cur = (chunks.take k).map mkSection := by
  intro chunks
  induction chunks with
  | nil => intro cap cur; exact ⟨0, rfl⟩
  | cons c rest ih =>
    intro cap cur
    by_cases h : cap < cur + (mkSection c).length
    · refine ⟨0, ?_⟩
      simp only [buildSections, if_pos h]
      simp
    · rcases ih cap (cur + (mkSection c).length) with ⟨k, hk⟩
      refine ⟨k + 1, ?_⟩
      simp only [buildSections, if_neg h, hk]
      simp [List.take_succ_cons]

theorem buildSections_sum_le :
    ∀ (chunks : List ContextChunk) (cap cur : Nat), cur ≤ cap →
      cur + ((buildSections chunks cap cur).map List.length).sum ≤ cap := by
  intro chunks
  induction chunks with
  | nil => intro cap cur h; simpa [buildSections] using h
  | cons c rest ih =>
    intro cap cur h
    by_cases hc : cap < cur + (mkSection c).length
    · simp only [buildSections, if_pos hc]
      simpa using h
    · simp only [buildSections, if_neg hc]
      have := ih cap (cur + (mkSection c).length) (by omega)
      simp only [List.map_cons, List.sum_cons]
      omega

/-- Claim C9: the context formatter greedily includes, in ranked order, whole
sections of the shape "Source ID: " + id + newline + text, stopping before
the cumulative length of the included sections would exceed the cap, so the
total length of the included sections never exceeds the cap. -/
theorem format_greedy_cap (chunks : List ContextChunk) (cap : Nat)
    (h : chunks ≠ []) :
    (∃ k, buildSections chunks cap 0 = (chunks.take k).map mkSection) ∧
    ((buildSections chunks cap 0).map List.length).sum ≤ cap ∧
    formatRetrievedContext chunks cap = joinSep ctxSep (buildSections chunks cap 0) := by
  refine ⟨buildSections_shape chunks cap 0,
    by simpa using buildSections_sum_le chunks cap 0 (Nat.zero_le cap), ?_⟩
  rw [formatRetrievedContext, if_neg]
  simpa using h

/-- Witness instantiating claim C9's theorem on a concrete chunk list. -/
theorem format_greedy_cap_witness :
    (∃ k, buildSections [⟨"x".toList, "hello".toList⟩] 100 0 =
      (([⟨"x".toList, "hello".toList⟩] : List ContextChunk).take k).map mkSection) ∧
    ((buildSections [⟨"x".toList, "hello".toList⟩] 100 0).map List.length).sum ≤ 100 ∧
    formatRetrievedContext [⟨"x".toList, "hello".toList⟩] 100 =
      joinSep ctxSep (buildSections [⟨"x".toList, "hello".toList⟩] 100 0) :=
  format_greedy_cap [⟨"x".toList, "hello".toList⟩] 100 (by decide)

theorem joinSep_head_cons {sep t : List Char} {xs : List (List Char)} :
    (joinSep sep (('S' :: t) :: xs)).head? = some 'S' := by
  cases xs with
  | nil => rfl
  | cons y ys => rfl

/-- Claim C10: a non-empty chunk list whose first section already exceeds the
cap yields the empty string, while the explicit no-context sentence is
produced exactly for the empty chunk list — a non-empty retrieval can thus
reach the prompt as an empty context rather than as the fallback signal. -/
theorem format_oversized_empty (c : ContextChunk) (rest : List ContextChunk)
    (cap : Nat) (h : cap < (mkSection c).length) :
    formatRetrievedContext (c :: rest) cap = [] ∧
    formatRetrievedContext [] cap = noContextMessage ∧
    ∀ l : List ContextChunk, l ≠ [] → formatRetrievedContext l cap ≠ noContextMessage := by
  refine ⟨?_, rfl, ?_⟩
  · rw [formatRetrievedContext, if_neg (by simp)]
    simp only [buildSections, if_pos (show cap < 0 + (mkSection c).length by simpa using h)]
    rfl
  · intro l hl heq
    rw [formatRetrievedContext, if_neg (by simpa using hl)] at heq
    cases l with
    | nil => exact hl rfl
    | cons c' rest' =>
      simp only [buildSections] at heq
      by_cases hc : cap < 0 + (mkSection c').length
      · rw [if_pos hc] at heq
        exact absurd heq (by decide)
      · rw [if_neg hc] at heq
        have hhead := congrArg List.head? heq
        rw [show mkSection c' = 'S' :: ("ource ID: ".toList ++ c'.id ++ '\n' :: c'.text)
          from rfl] at hhead
        rw [joinSep_head_cons] at hhead
        exact absurd hhead (by decide)

/-- Witness instantiating claim C10's theorem: a 12-character first section
against a cap of 5 produces the empty string, not the fallback sentence. -/
theorem format_oversized_empty_witness :
    (5:Nat) < (mkSection ⟨"x".toList, "hello".toList⟩).length ∧
    (formatRetrievedContext [⟨"x".toList, "hello".toList⟩] 5 = [] ∧
      formatRetrievedContext [] 5 = noContextMessage ∧
      ∀ l : List ContextChunk, l ≠ [] → formatRetrievedContext l 5 ≠ noContextMessage) :=
  ⟨by decide, format_oversized_empty ⟨"x".toList, "hello".toList⟩ [] 5 (by decide)⟩

/-! ### Structure of normalized text -/

theorem head?_dropWhile_not_ws (p : Char → Bool) :
    ∀ (l : List Char) (c : Char), (l.dropWhile p).head? = some c → p c = false := by
  intro l
  induction l with
  | nil => intro c h; cases h
  | cons a rest ih =>
    intro c h
    by_cases hp : p a
    · rw [List.dropWhile_cons, if_pos hp] at h
      exact ih c h
    · rw [List.dropWhile_cons, if_neg hp] at h
      cases h
      exact Bool.of_not_eq_true hp

theorem dropWhile_eq_self_of_head (p : Char → Bool) (l : List Char)
    (h : ∀ c, l.head? = some c → p c = false) : l.dropWhile p = l := by
  cases l with
  | nil => rfl
  | cons a rest =>
    rw [List.dropWhile_cons, if_neg]
    rw [h a rfl]
    simp

theorem getLast?_dropWhile_sub (p : Char → Bool) :
    ∀ (l : List Char) (c : Char), (l.dropWhile p).getLast? = some c →
      l.getLast? = some c := by
  intro l
  induction l with
  | nil => intro c h; cases h
  | cons a rest ih =>
    intro c h
    by_cases hp : p a
    · rw [List.dropWhile_cons, if_pos hp] at h
      have hc := ih c h
      cases rest with
      | nil => cases hc
      | cons b rest' => rw [List.getLast?_cons_cons]; exact hc
    · rwa [List.dropWhile_cons, if_neg hp] at h

theorem trim_head_not_ws (s : List Char) (c : Char)
    (h : (trimChars s).head? = some c) : isWs c = false := by
  rw [trimChars, List.head?_reverse] at h
  have h2 := getLast?_dropWhile_sub isWs _ c h
  rw [List.getLast?_reverse] at h2
  exact head?_dropWhile_not_ws isWs _ c h2

theorem trim_getLast_not_ws (s : List Char) (c : Char)
    (h : (trimChars s).getLast? = some c) : isWs c = false := by
  rw [trimChars, List.getLast?_reverse] at h
  exact head?_dropWhile_not_ws isWs _ c h

theorem trimChars_eq_self (l : List Char)
    (h1 : ∀ c, l.head? = some c → isWs c = false)
    (h2 : ∀ c, l.getLast? = some c → isWs c = false) : trimChars l = l := by
  rw [trimChars, dropWhile_eq_self_of_head isWs l h1, dropWhile_eq_self_of_head]
  · exact List.reverse_reverse l
  · intro c hc
    rw [List.head?_reverse] at hc
    exact h2 c hc

theorem trimChars_idem (s : List Char) : trimChars (trimChars s) = trimChars s :=
  trimChars_eq_self _ (trim_head_not_ws s) (trim_getLast_not_ws s)

theorem trim_normalize (value : List Char) :
    trimChars (normalizeText value) = normalizeText value := by
  rw [normalizeText, trimChars_idem]

/-- Adjacent characters of a list are never both whitespace. -/
def NoAdjWs (l : List Char) : Prop :=
  ∀ (i : Nat) (c₁ c₂ : Char), l[i]? = some c₁ → l[i+1]? = some c₂ →
    isWs c₁ = true → isWs c₂ = false

theorem noAdjWs_nil : NoAdjWs [] := by
  intro i c₁ c₂ h1
  cases h1

theorem noAdjWs_tail {c : Char} {l : List Char} (h : NoAdjWs (c :: l)) :
    NoAdjWs l := by
  intro i c₁ c₂ h1 h2 hw
  exact h (i + 1) c₁ c₂ (by simpa using h1) (by simpa using h2) hw

theorem noAdjWs_cons {c : Char} {l : List Char} (h : NoAdjWs l)
    (hc : ∀ c₂, l.head? = some c₂ → isWs c = true → isWs c₂ = false) :
    NoAdjWs (c :: l) := by
  intro i c₁ c₂ h1 h2 hw
  cases i with
  | zero =>
    rw [List.getElem?_cons_zero] at h1
    cases h1
    rw [List.getElem?_cons_succ, ← List.head?_eq_getElem?] at h2
    exact hc c₂ h2 hw
  | succ j =>
    rw [List.getElem?_cons_succ] at h1 h2
    exact h j c₁ c₂ h1 h2 hw

theorem noAdjWs_reverse {l : List Char} (h : NoAdjWs l) : NoAdjWs l.reverse := by
  intro i c₁ c₂ h1 h2 hw
  have hi1 : i + 1 < l.length := by
    by_contra hcon
    rw [List.getElem?_eq_none (by simpa [List.length_reverse] using Nat.le_of_not_lt hcon)] at h2
    cases h2
  have hi : i < l.length := by omega
  rw [List.getElem?_reverse (by simpa using hi)] at h1
  rw [List.getElem?_reverse (by simpa using hi1)] at h2
  by_contra hcon
  have hc2 : isWs c₂ = true := Bool.of_not_eq_false hcon
  have harith : (l.length - 1 - (i + 1)) + 1 = l.length - 1 - i := by omega
  have := h (l.length - 1 - (i + 1)) c₂ c₁ h2 (by rw [harith]; exact h1) hc2
  rw [this] at hw
  cases hw

theorem noAdjWs_dropWhile (p : Char → Bool) :
    ∀ (l : List Char), NoAdjWs l → NoAdjWs (l.dropWhile p) := by
  intro l
  induction l with
  | nil => intro h; exact h
  | cons a rest ih =>
    intro h
    by_cases hp : p a
    · rw [List.dropWhile_cons, if_pos hp]
      exact ih (noAdjWs_tail h)
    · rwa [List.dropWhile_cons, if_neg hp]

theorem squashWsAux_true_head :
    ∀ (l : List Char) (c : Char), (squashWsAux true l).head? = some c →
      isWs c = false := by
  intro l
  induction l with
  | nil => intro c h; cases h
  | cons a rest ih =>
    intro c h
    by_cases ha : isWs a
    · rw [squashWsAux, if_pos ha, if_pos rfl] at h
      exact ih c h
    · rw [squashWsAux, if_neg ha] at h
      cases h
      exact Bool.of_not_eq_true ha

theorem noAdjWs_squashWsAux :
    ∀ (l : List Char) (b : Bool), NoAdjWs (squashWsAux b l) := by
  intro l
  induction l with
  | nil => intro b; exact noAdjWs_nil
  | cons a rest ih =>
    intro b
    by_cases ha : isWs a
    · cases b with
      | true =>
        rw [squashWsAux, if_pos ha, if_pos rfl]
        exact ih true
      | false =>
        rw [squashWsAux, if_pos ha, if_neg (by simp)]
        refine noAdjWs_cons (ih true) ?_
        intro c₂ hc₂ _
        exact squashWsAux_true_head rest c₂ hc₂
    · rw [squashWsAux, if_neg ha]
      refine noAdjWs_cons (ih false) ?_
      intro c₂ _ hws
      rw [Bool.of_not_eq_true ha] at hws
      cases hws

theorem noAdjWs_normalize (value : List Char) : NoAdjWs (normalizeText value) := by
  rw [normalizeText, trimChars]
  exact noAdjWs_reverse (noAdjWs_dropWhile isWs _
    (noAdjWs_reverse (noAdjWs_dropWhile isWs _ (noAdjWs_squashWsAux value false))))

theorem jsSlice_getElem? (s : List Char) (start stop j : Nat)
    (h1 : start ≤ j) (h2 : j < stop) :
    (jsSlice s start stop)[j - start]? = s[j]? := by
  rw [jsSlice, List.getElem?_take, if_pos (by omega), List.getElem?_drop]
  congr 1
  omega

theorem mem_jsSlice_of_getElem (s : List Char) (start stop j : Nat) (c : Char)
    (h1 : start ≤ j) (h2 : j < stop) (h3 : s[j]? = some c) :
    c ∈ jsSlice s start stop := by
  apply List.getElem?_mem (n := j - start)
  rw [jsSlice_getElem? s start stop j h1 h2]
  exact h3

theorem trim_ne_nil_of_mem (l : List Char) (c : Char) (hc : c ∈ l)
    (hw : isWs c = false) : trimChars l ≠ [] := by
  intro h
  rw [trimChars, List.reverse_eq_nil_iff, List.dropWhile_eq_nil_iff] at h
  have hcx : c ∈ l.dropWhile isWs := by
    have hsplit := List.takeWhile_append_dropWhile (p := isWs) (l := l)
    rcases List.mem_append.mp (by rw [hsplit]; exact hc) with h' | h'
    · have := List.mem_takeWhile_imp h'
      rw [hw] at this
      cases this
    · exact h'
  have := h c (List.mem_reverse.mpr hcx)
  rw [hw] at this
  cases this

theorem lastSpaceLE_le (s : List Char) :
    ∀ (i w : Nat), lastSpaceLE s i = some w → w ≤ i := by
  intro i
  induction i with
  | zero =>
    intro w h
    rw [lastSpaceLE] at h
    by_cases hc : s.getD 0 '?' = ' '
    · rw [if_pos hc] at h; cases h; exact le_refl 0
    · rw [if_neg hc] at h; cases h
  | succ j ih =>
    intro w h
    rw [lastSpaceLE] at h
    by_cases hc : s.getD (j + 1) '?' = ' '
    · rw [if_pos hc] at h; cases h; exact le_refl _
    · rw [if_neg hc] at h
      exact le_trans (ih w h) (by omega)

theorem chunkEnd_eq_of_some (s : List Char) (maxLen start w : Nat)
    (hlt : min (start + maxLen) s.length < s.length)
    (hl : lastSpaceLE s (min (start + maxLen) s.length) = some w) :
    chunkEnd s maxLen start =
      if start + maxLen * 6 / 10 < w then w else min (start + maxLen) s.length := by
  rw [chunkEnd, if_pos hlt, hl]

theorem chunkEnd_eq_of_none (s : List Char) (maxLen start : Nat)
    (hlt : min (start + maxLen) s.length < s.length)
    (hl : lastSpaceLE s (min (start + maxLen) s.length) = none) :
    chunkEnd s maxLen start = min (start + maxLen) s.length := by
  rw [chunkEnd, if_pos hlt, hl]

theorem chunkEnd_eq_of_end (s : List Char) (maxLen start : Nat)
    (hlt : ¬ min (start + maxLen) s.length < s.length) :
    chunkEnd s maxLen start = min (start + maxLen) s.length := by
  rw [chunkEnd, if_neg hlt]

theorem chunkEnd_le (s : List Char) (maxLen start : Nat) :
    chunkEnd s maxLen start ≤ s.length ∧ chunkEnd s maxLen start ≤ start + maxLen := by
  by_cases hlt : min (start + maxLen) s.length < s.length
  · cases hl : lastSpaceLE s (min (start + maxLen) s.length) with
    | none =>
      rw [chunkEnd_eq_of_none s maxLen start hlt hl]
      constructor <;> omega
    | some w =>
      rw [chunkEnd_eq_of_some s maxLen start w hlt hl]
      have hw := lastSpaceLE_le s _ w hl
      by_cases hcut : start + maxLen * 6 / 10 < w
      · rw [if_pos hcut]
        constructor <;> omega
      · rw [if_neg hcut]
        constructor <;> omega
  · rw [chunkEnd_eq_of_end s maxLen start hlt]
    constructor <;> omega

theorem chunkEnd_gt_start (s : List Char) (maxLen start : Nat)
    (hm : 1 ≤ maxLen) (hs : start < s.length) : start < chunkEnd s maxLen start := by
  by_cases hlt : min (start + maxLen) s.length < s.length
  · cases hl : lastSpaceLE s (min (start + maxLen) s.length) with
    | none =>
      rw [chunkEnd_eq_of_none s maxLen start hlt hl]
      omega
    | some w =>
      rw [chunkEnd_eq_of_some s maxLen start w hlt hl]
      by_cases hcut : start + maxLen * 6 / 10 < w
      · rw [if_pos hcut]
        omega
      · rw [if_neg hcut]
        omega
  · rw [chunkEnd_eq_of_end s maxLen start hlt]
    omega

theorem chunkEnd_width_two (s : List Char) (maxLen start : Nat)
    (hm : 2 ≤ maxLen) (_hs : start < s.length)
    (hend : chunkEnd s maxLen start < s.length) :
    start + 2 ≤ chunkEnd s maxLen start := by
  have hthr : 1 ≤ maxLen * 6 / 10 := by
    have h12 : 12 ≤ maxLen * 6 := by omega
    omega
  by_cases hlt : min (start + maxLen) s.length < s.length
  · cases hl : lastSpaceLE s (min (start + maxLen) s.length) with
    | none =>
      rw [chunkEnd_eq_of_none s maxLen start hlt hl] at hend ⊢
      omega
    | some w =>
      rw [chunkEnd_eq_of_some s maxLen start w hlt hl] at hend ⊢
      by_cases hcut : start + maxLen * 6 / 10 < w
      · rw [if_pos hcut] at hend ⊢
        omega
      · rw [if_neg hcut] at hend ⊢
        omega
  · rw [chunkEnd_eq_of_end s maxLen start hlt] at hend
    omega

theorem splitLoop_eq_windows_aux :
    ∀ (n : Nat) (s : List Char) (maxLen overlap start : Nat), s.length - start ≤ n →
      splitLoop s maxLen overlap start =
        (splitLoopW s maxLen overlap start).map
          (fun w => trimChars (jsSlice s w.1 w.2)) := by
  intro n
  induction n with
  | zero =>
    intro s maxLen overlap start h
    rw [splitLoop, splitLoopW]
    have hns : ¬ start < s.length := by omega
    simp [hns]
  | succ k ih =>
    intro s maxLen overlap start h
    rw [splitLoop, splitLoopW]
    by_cases hlt : start < s.length
    · simp only [hlt, dif_pos]
      by_cases hend : s.length ≤ chunkEnd s maxLen start
      · by_cases htrim : trimChars (jsSlice s start (chunkEnd s maxLen start)) = []
        · simp [hend, htrim]
        · simp [hend, htrim]
      · have hns := nextStart_gt s maxLen overlap start
        have hrec := ih s maxLen overlap (nextStart s maxLen overlap start) (by omega)
        by_cases htrim : trimChars (jsSlice s start (chunkEnd s maxLen start)) = []
        · simp [hend, htrim, hrec]
        · simp [hend, htrim, hrec]
    · simp [hlt]

/-- Every emitted chunk is the trimmed text of its recorded window. -/
theorem splitLoop_eq_windows (s : List Char) (maxLen overlap start : Nat) :
    splitLoop s maxLen overlap start =
      (splitLoopW s maxLen overlap start).map
        (fun w => trimChars (jsSlice s w.1 w.2)) :=
  splitLoop_eq_windows_aux (s.length - start) s maxLen overlap start le_rfl

theorem jsSlice_zero_length (n : List Char) : jsSlice n 0 n.length = n := by
  rw [jsSlice]
  simp

/-- The chunks of `splitIntoChunks` are exactly the trimmed window texts of
`splitIntoWindows`. -/
theorem splitIntoChunks_eq_windows (value : List Char) (maxLen overlap : Nat) :
    splitIntoChunks value maxLen overlap =
      (splitIntoWindows value maxLen overlap).map
        (fun w => trimChars (jsSlice (normalizeText value) w.1 w.2)) := by
  rw [splitIntoChunks, splitIntoWindows]
  by_cases h0 : normalizeText value = []
  · simp [h0]
  · by_cases h1 : (normalizeText value).length ≤ maxLen
    · simp only [h0, h1, if_neg, if_pos, ite_true, ite_false, if_true, if_false,
        List.map_cons, List.map_nil]
      rw [jsSlice_zero_length, trim_normalize]
    · simp only [h0, h1, if_neg, ite_false]
      exact splitLoop_eq_windows (normalizeText value) maxLen overlap 0

theorem splitLoopW_inv_aux :
    ∀ (n : Nat) (s : List Char) (maxLen overlap start : Nat), s.length - start ≤ n →
      ∀ w ∈ splitLoopW s maxLen overlap start,
        w.2 = chunkEnd s maxLen w.1 ∧
        trimChars (jsSlice s w.1 w.2) ≠ [] ∧ w.1 < s.length := by
  intro n
  induction n with
  | zero =>
    intro s maxLen overlap start h w hw
    rw [splitLoopW] at hw
    have hns : ¬ start < s.length := by omega
    simp [hns] at hw
  | succ k ih =>
    intro s maxLen overlap start h w hw
    rw [splitLoopW] at hw
    by_cases hlt : start < s.length
    · simp only [hlt, dif_pos] at hw
      by_cases hend : s.length ≤ chunkEnd s maxLen start
      · by_cases htrim : trimChars (jsSlice s start (chunkEnd s maxLen start)) = []
        · simp [hend, htrim] at hw
        · have hw' : w = (start, chunkEnd s maxLen start) := by
            simpa [hend, htrim] using hw
          subst hw'
          exact ⟨rfl, htrim, hlt⟩
      · have hns := nextStart_gt s maxLen overlap start
        have hrec := ih s maxLen overlap (nextStart s maxLen overlap start) (by omega)
        by_cases htrim : trimChars (jsSlice s start (chunkEnd s maxLen start)) = []
        · rw [if_pos htrim, if_neg (by omega)] at hw
          exact hrec w hw
        · rw [if_neg htrim, if_neg (by omega)] at hw
          rcases List.mem_cons.mp hw with rfl | hw'
          · exact ⟨rfl, htrim, hlt⟩
          · exact hrec w hw'
    · simp [hlt] at hw

/-- Invariants of every emitted window: its end is the `chunkEnd` of its
start, its trimmed text is non-empty, and its start lies inside the text. -/
theorem splitLoopW_inv (s : List Char) (maxLen overlap start : Nat) :
    ∀ w ∈ splitLoopW s maxLen overlap start,
      w.2 = chunkEnd s maxLen w.1 ∧
      trimChars (jsSlice s w.1 w.2) ≠ [] ∧ w.1 < s.length :=
  splitLoopW_inv_aux (s.length - start) s maxLen overlap start le_rfl

theorem window_emitted (s : List Char) (maxLen start : Nat) (hm : 2 ≤ maxLen)
    (hadj : NoAdjWs s) (hlast : ∀ c, s.getLast? = some c → isWs c = false)
    (hs : start < s.length) :
    trimChars (jsSlice s start (chunkEnd s maxLen start)) ≠ [] := by
  have hle := (chunkEnd_le s maxLen start).1
  have hgt := chunkEnd_gt_start s maxLen start (by omega) hs
  by_cases hwide : start + 2 ≤ chunkEnd s maxLen start
  · cases hc0 : s[start]? with
    | none =>
      rw [List.getElem?_eq_none_iff] at hc0
      omega
    | some c0 =>
      cases hc1 : s[start + 1]? with
      | none =>
        rw [List.getElem?_eq_none_iff] at hc1
        omega
      | some c1 =>
        by_cases hw0 : isWs c0 = true
        · have hw1 : isWs c1 = false := hadj start c0 c1 hc0 hc1 hw0
          exact trim_ne_nil_of_mem _ c1
            (mem_jsSlice_of_getElem s start _ (start + 1) c1 (by omega) (by omega) hc1) hw1
        · exact trim_ne_nil_of_mem _ c0
            (mem_jsSlice_of_getElem s start _ start c0 (by omega) (by omega) hc0)
            (Bool.of_not_eq_true hw0)
  · have hnarrow : chunkEnd s maxLen start = start + 1 := by omega
    have hendfull : chunkEnd s maxLen start = s.length := by
      by_contra hne
      have : chunkEnd s maxLen start < s.length := by omega
      have := chunkEnd_width_two s maxLen start hm hs this
      omega
    have hlen : s.length = start + 1 := by omega
    cases hc : s[start]? with
    | none =>
      rw [List.getElem?_eq_none_iff] at hc
      omega
    | some c =>
      have hlastc : s.getLast? = some c := by
        rw [List.getLast?_eq_getElem?]
        rw [show s.length - 1 = start from by omega]
        exact hc
      exact trim_ne_nil_of_mem _ c
        (mem_jsSlice_of_getElem s start _ start c (le_refl start) (by omega) hc)
        (hlast c hlastc)

theorem splitLoopW_cover_aux :
    ∀ (n : Nat) (s : List Char) (maxLen overlap : Nat), 2 ≤ maxLen →
      NoAdjWs s → (∀ c, s.getLast? = some c → isWs c = false) →
      ∀ start, s.length - start ≤ n → start < s.length →
      ∀ i, start ≤ i → i < s.length →
        ∃ w ∈ splitLoopW s maxLen overlap start, w.1 ≤ i ∧ i < w.2 := by
  intro n
  induction n with
  | zero =>
    intro s maxLen overlap _ _ _ start hn hs
    omega
  | succ k ih =>
    intro s maxLen overlap hm hadj hlast start hn hs i hi1 hi2
    have hemit := window_emitted s maxLen start hm hadj hlast hs
    have hgt := chunkEnd_gt_start s maxLen start (by omega) hs
    have hle := (chunkEnd_le s maxLen start).1
    rw [splitLoopW]
    simp only [hs, dif_pos]
    rw [if_neg hemit]
    by_cases hcov : i < chunkEnd s maxLen start
    · exact ⟨(start, chunkEnd s maxLen start), List.mem_cons_self _ _, hi1, hcov⟩
    · have hend : ¬ s.length ≤ chunkEnd s maxLen start := by omega
      rw [if_neg hend]
      have hnsle : nextStart s maxLen overlap start ≤ chunkEnd s maxLen start := by
        rw [nextStart]
        omega
      have hnsgt := nextStart_gt s maxLen overlap start
      rcases ih s maxLen overlap hm hadj hlast (nextStart s maxLen overlap start)
          (by omega) (by omega) i (by omega) hi2 with ⟨w, hwmem, hw⟩
      exact ⟨w, List.mem_cons_of_mem _ hwmem, hw⟩

/-- Claim C6: the emitted chunks are exactly the trimmed texts of the emitted
windows, and (for any window length of at least 2, in particular the default
700) every character position of the normalized text is covered by some
emitted window — no character falls outside their union. -/
theorem chunks_cover (value : List Char) (maxLen overlap : Nat) (hm : 2 ≤ maxLen) :
    splitIntoChunks value maxLen overlap =
      (splitIntoWindows value maxLen overlap).map
        (fun w => trimChars (jsSlice (normalizeText value) w.1 w.2)) ∧
    ∀ i, i < (normalizeText value).length →
      ∃ w ∈ splitIntoWindows value maxLen overlap, w.1 ≤ i ∧ i < w.2 := by
  refine ⟨splitIntoChunks_eq_windows value maxLen overlap, ?_⟩
  intro i hi
  rw [splitIntoWindows]
  by_cases h0 : normalizeText value = []
  · rw [h0] at hi
    simp at hi
  · by_cases h1 : (normalizeText value).length ≤ maxLen
    · simp only [h0, h1, if_neg, if_pos, ite_true, ite_false, if_true, if_false]
      exact ⟨(0, (normalizeText value).length), List.mem_singleton.mpr rfl,
        Nat.zero_le i, hi⟩
    · simp only [h0, h1, if_neg, ite_false]
      have hlast : ∀ c, (normalizeText value).getLast? = some c → isWs c = false := by
        intro c hc
        rw [normalizeText] at hc
        exact trim_getLast_not_ws (squashWs value) c hc
      exact splitLoopW_cover_aux ((normalizeText value).length) (normalizeText value)
        maxLen overlap hm (noAdjWs_normalize value) hlast 0 (by omega) (by omega)
        i (Nat.zero_le i) hi

/-- Witness instantiating claim C6's theorem at the default parameters: the
character at index 3 of the normalized text lies in an emitted window. -/
theorem chunks_cover_witness :
    (2:Nat) ≤ 700 ∧ 3 < (normalizeText "hello world".toList).length ∧
    (splitIntoChunks "hello world".toList 700 120 =
      (splitIntoWindows "hello world".toList 700 120).map
        (fun w => trimChars (jsSlice (normalizeText "hello world".toList) w.1 w.2)) ∧
     ∃ w ∈ splitIntoWindows "hello world".toList 700 120, w.1 ≤ 3 ∧ 3 < w.2) := by
  have h := chunks_cover "hello world".toList 700 120 (by decide)
  exact ⟨by decide, by decide, h.1, h.2 3 (by decide)⟩

/-- Decides that no space break above the 60% threshold is available for the
window starting at `start`, i.e. the hard-cut condition of the loop. -/
def noSpaceBreak (s : List Char) (maxLen start : Nat) : Bool :=
  match lastSpaceLE s (min (start + maxLen) s.length) with
  | none => true
  | some w => decide (w ≤ start + maxLen * 6 / 10)

theorem trim_length_le (l : List Char) : (trimChars l).length ≤ l.length := by
  rw [trimChars]
  calc ((l.dropWhile isWs).reverse.dropWhile isWs).reverse.length
      = ((l.dropWhile isWs).reverse.dropWhile isWs).length := List.length_reverse _
    _ ≤ (l.dropWhile isWs).reverse.length := (List.dropWhile_sublist _).length_le
    _ = (l.dropWhile isWs).length := List.length_reverse _
    _ ≤ l.length := (List.dropWhile_sublist _).length_le

theorem jsSlice_length_le (s : List Char) (start stop : Nat) :
    (jsSlice s start stop).length ≤ stop - start := by
  rw [jsSlice, List.length_take]
  omega

theorem jsSlice_nil_of_le (s : List Char) (start stop : Nat) (h : stop ≤ start) :
    jsSlice s start stop = [] := by
  rw [jsSlice, show stop - start = 0 from by omega]
  simp

/-- Amended claim C5: every emitted chunk's length is at most `maxLen`; when
no space break above the 60% threshold exists and the window is not the final
one, the untrimmed window `[start, end)` has width exactly `maxLen` — the
emitted chunk is that window's trimmed text and can be shorter than `maxLen`
when the window begins or ends with a space. -/
theorem split_len_amended (value : List Char) (maxLen overlap : Nat) :
    (∀ c ∈ splitIntoChunks value maxLen overlap, c.length ≤ maxLen) ∧
    (∀ w ∈ splitIntoWindows value maxLen overlap,
      w.1 < w.2 ∧ w.2 ≤ (normalizeText value).length ∧ w.2 - w.1 ≤ maxLen ∧
      (w.2 < (normalizeText value).length →
        noSpaceBreak (normalizeText value) maxLen w.1 = true → w.2 = w.1 + maxLen)) := by
  have hwin : ∀ w ∈ splitIntoWindows value maxLen overlap,
      w.1 < w.2 ∧ w.2 ≤ (normalizeText value).length ∧ w.2 - w.1 ≤ maxLen ∧
      (w.2 < (normalizeText value).length →
        noSpaceBreak (normalizeText value) maxLen w.1 = true → w.2 = w.1 + maxLen) := by
    intro w hw
    rw [splitIntoWindows] at hw
    by_cases h0 : normalizeText value = []
    · simp [h0] at hw
    · by_cases h1 : (normalizeText value).length ≤ maxLen
      · simp only [h0, h1, if_neg, if_pos, ite_true, ite_false, if_true, if_false,
          List.mem_singleton] at hw
        subst hw
        have hpos : 0 < (normalizeText value).length := List.length_pos.mpr h0
        refine ⟨hpos, le_refl _, by omega, ?_⟩
        intro hcon
        omega
      · simp only [h0, h1, if_neg, ite_false] at hw
        obtain ⟨heq, htrim, _⟩ := splitLoopW_inv (normalizeText value) maxLen overlap 0 w hw
        have hle := chunkEnd_le (normalizeText value) maxLen w.1
        have hlt12 : w.1 < w.2 := by
          by_contra hcon
          exact htrim (by rw [jsSlice_nil_of_le _ _ _ (by omega)]; rfl)
        refine ⟨hlt12, by omega, by omega, ?_⟩
        intro hlt hnsb
        have hminlt : min (w.1 + maxLen) (normalizeText value).length <
            (normalizeText value).length := by
          by_contra hcon
          rw [chunkEnd_eq_of_end _ _ _ hcon] at heq
          omega
        cases hl : lastSpaceLE (normalizeText value)
            (min (w.1 + maxLen) (normalizeText value).length) with
        | none =>
          rw [chunkEnd_eq_of_none _ _ _ hminlt hl] at heq
          omega
        | some ws =>
          simp only [noSpaceBreak, hl, decide_eq_true_eq] at hnsb
          rw [chunkEnd_eq_of_some _ _ _ ws hminlt hl, if_neg (by omega)] at heq
          omega
  refine ⟨?_, hwin⟩
  intro c hc
  rw [splitIntoChunks_eq_windows] at hc
  rcases List.mem_map.mp hc with ⟨w, hwmem, rfl⟩
  obtain ⟨h12, _, hwid, _⟩ := hwin w hwmem
  calc (trimChars (jsSlice (normalizeText value) w.1 w.2)).length
      ≤ (jsSlice (normalizeText value) w.1 w.2).length := trim_length_le _
    _ ≤ w.2 - w.1 := jsSlice_length_le _ _ _
    _ ≤ maxLen := hwid

/-- Witness instantiating the amended claim C5 on a concrete chunk. -/
theorem split_len_amended_witness :
    "ab cd".toList ∈ splitIntoChunks "ab cd".toList 700 120 ∧
    ("ab cd".toList).length ≤ 700 :=
  ⟨by decide, (split_len_amended "ab cd".toList 700 120).1 "ab cd".toList (by decide)⟩

/-- Counterexample to claim C5 as stated: splitting "abcde fghij klmno" with
`maxLen = 5`, `overlap = 0`, the window `[5, 10)` is a hard cut (no space
break above the threshold `5 + ⌊5·0.6⌋ = 8` exists at or below 10 except the
one at 5) and is not the final window, yet its emitted chunk "fghi" has
length 4, not exactly `maxLen = 5` — trimming removed the window's leading
space. -/
theorem split_len_counterexample :
    splitIntoChunks "abcde fghij klmno".toList 5 0 =
      ["abcde".toList, "fghi".toList, "j klm".toList, "no".toList] ∧
    splitIntoWindows "abcde fghij klmno".toList 5 0 =
      [(0, 5), (5, 10), (10, 15), (15, 17)] ∧
    noSpaceBreak (normalizeText "abcde fghij klmno".toList) 5 5 = true ∧
    (10:Nat) < (normalizeText "abcde fghij klmno".toList).length ∧
    ("fghi".toList).length ≠ 5 := by
  have hW : splitIntoWindows "abcde fghij klmno".toList 5 0 =
      [(0, 5), (5, 10), (10, 15), (15, 17)] := by
    show splitLoopW (normalizeText "abcde fghij klmno".toList) 5 0 0 =
      [(0, 5), (5, 10), (10, 15), (15, 17)]
    rw [splitLoopW_eq_fuel 20 (normalizeText "abcde fghij klmno".toList) 5 0 0 (by decide)]
    decide
  refine ⟨?_, hW, by decide, by decide, by decide⟩
  rw [splitIntoChunks_eq_windows, hW]
  decide

theorem lastSpaceLE_spec (s : List Char) :
    ∀ i : Nat,
      (∀ w, lastSpaceLE s i = some w →
        w ≤ i ∧ s.getD w '?' = ' ' ∧ ∀ j, w < j → j ≤ i → s.getD j '?' ≠ ' ') ∧
      (lastSpaceLE s i = none → ∀ j, j ≤ i → s.getD j '?' ≠ ' ') := by
  intro i
  induction i with
  | zero =>
    constructor
    · intro w h
      rw [lastSpaceLE] at h
      by_cases hc : s.getD 0 '?' = ' '
      · rw [if_pos hc] at h
        cases h
        exact ⟨le_refl 0, hc, fun j h1 h2 => by omega⟩
      · rw [if_neg hc] at h
        cases h
    · intro h j hj
      rw [lastSpaceLE] at h
      by_cases hc : s.getD 0 '?' = ' '
      · rw [if_pos hc] at h
        cases h
      · rw [if_neg hc] at h
        rw [show j = 0 from by omega]
        exact hc
  | succ k ih =>
    constructor
    · intro w h
      rw [lastSpaceLE] at h
      by_cases hc : s.getD (k + 1) '?' = ' '
      · rw [if_pos hc] at h
        cases h
        exact ⟨le_refl _, hc, fun j h1 h2 => by omega⟩
      · rw [if_neg hc] at h
        obtain ⟨hw1, hw2, hw3⟩ := ih.1 w h
        refine ⟨by omega, hw2, ?_⟩
        intro j h1 h2
        by_cases hj : j ≤ k
        · exact hw3 j h1 hj
        · rw [show j = k + 1 from by omega]
          exact hc
    · intro h j hj
      rw [lastSpaceLE] at h
      by_cases hc : s.getD (k + 1) '?' = ' '
      · rw [if_pos hc] at h
        cases h
      · rw [if_neg hc] at h
        by_cases hjk : j ≤ k
        · exact ih.2 h j hjk
        · rw [show j = k + 1 from by omega]
          exact hc

/-- Amended claim C7: when the window end falls strictly before the text end,
the loop consults `lastIndexOf(" ", end)` — the last space at a position up
to AND INCLUDING `end` itself, not merely within `[start, end)` — and backs
off to it only when it lies strictly past `start + ⌊maxLen·0.6⌋`; otherwise
the hard cut at `start + maxLen` stands.  In particular, when the character
at position `end` itself is a space, the "back-off" is to `end` and changes
nothing, even if a space above the threshold exists inside the window. -/
theorem backoff_amended (s : List Char) (maxLen start : Nat)
    (h : start + maxLen < s.length) :
    (∀ w, lastSpaceLE s (start + maxLen) = some w →
      w ≤ start + maxLen ∧ s.getD w '?' = ' ' ∧
      (∀ j, w < j → j ≤ start + maxLen → s.getD j '?' ≠ ' ') ∧
      chunkEnd s maxLen start =
        if start + maxLen * 6 / 10 < w then w else start + maxLen) ∧
    (lastSpaceLE s (start + maxLen) = none →
      (∀ j, j ≤ start + maxLen → s.getD j '?' ≠ ' ') ∧
      chunkEnd s maxLen start = start + maxLen) := by
  have hmin : min (start + maxLen) s.length = start + maxLen := by omega
  have hminlt : min (start + maxLen) s.length < s.length := by omega
  constructor
  · intro w hl
    obtain ⟨h1, h2, h3⟩ := (lastSpaceLE_spec s (start + maxLen)).1 w hl
    refine ⟨h1, h2, h3, ?_⟩
    rw [chunkEnd_eq_of_some s maxLen start w hminlt (by rw [hmin]; exact hl), hmin]
  · intro hl
    refine ⟨(lastSpaceLE_spec s (start + maxLen)).2 hl, ?_⟩
    rw [chunkEnd_eq_of_none s maxLen start hminlt (by rw [hmin]; exact hl), hmin]

/-- Witness instantiating the amended claim C7: in "aaaaaaa bb dddd" with
`maxLen = 10`, `start = 0`, the search finds the space at position 10 — the
window end itself — and the "back-off" leaves the end at 10. -/
theorem backoff_amended_witness :
    0 + 10 < (normalizeText "aaaaaaa bb dddd".toList).length ∧
    (10 ≤ 0 + 10 ∧ (normalizeText "aaaaaaa bb dddd".toList).getD 10 '?' = ' ' ∧
      (∀ j, 10 < j → j ≤ 0 + 10 →
        (normalizeText "aaaaaaa bb dddd".toList).getD j '?' ≠ ' ') ∧
      chunkEnd (normalizeText "aaaaaaa bb dddd".toList) 10 0 =
        if 0 + 10 * 6 / 10 < 10 then 10 else 0 + 10) :=
  ⟨by decide,
    (backoff_amended (normalizeText "aaaaaaa bb dddd".toList) 10 0 (by decide)).1
      10 (by decide)⟩

/-- Rendering of claim C7's own words, for comparison with the code: the last
space character strictly within the window `[start, e)`. -/
def lastSpaceBelow (s : List Char) (start : Nat) : Nat → Option Nat
  | 0 => none
  | e + 1 =>
    if start ≤ e ∧ s.getD e '?' = ' ' then some e else lastSpaceBelow s start e

/-- Counterexample to claim C7 as stated: on "aaaaaaa bb dddd" with
`maxLen = 10`, `overlap = 0`, the first window is `[0, 10)`; the last space
strictly within it sits at position 7, strictly past the threshold
`0 + ⌊10·0.6⌋ = 6`, so the claim mandates backing off to 7 — but the code's
`lastIndexOf(" ", 10)` finds the space at position 10 itself and keeps the
end at 10, emitting "aaaaaaa bb" instead of "aaaaaaa". -/
theorem backoff_counterexample :
    chunkEnd (normalizeText "aaaaaaa bb dddd".toList) 10 0 = 10 ∧
    lastSpaceBelow (normalizeText "aaaaaaa bb dddd".toList) 0 10 = some 7 ∧
    0 + 10 * 6 / 10 < 7 ∧
    splitIntoChunks "aaaaaaa bb dddd".toList 10 0 =
      ["aaaaaaa bb".toList, "dddd".toList] := by
  have hW : splitIntoWindows "aaaaaaa bb dddd".toList 10 0 = [(0, 10), (10, 15)] := by
    show splitLoopW (normalizeText "aaaaaaa bb dddd".toList) 10 0 0 = [(0, 10), (10, 15)]
    rw [splitLoopW_eq_fuel 20 (normalizeText "aaaaaaa bb dddd".toList) 10 0 0 (by decide)]
    decide
  refine ⟨by decide, by decide, by decide, ?_⟩
  rw [splitIntoChunks_eq_windows, hW]
  decide
